import Mathlib

/-!
A verification development for the tree-rewriting core of `tiny-fusion`
(`src/common/tests/test_node.rs`): the `Transformed` change-tracking
wrapper, the `TreeNode` operations (`apply_children`, `map_children`,
`transform`, `transform_down`) instantiated at `LogicalPlan`, and the
three optimization rules (`push_down_limit`,
`remove_redundant_projection`, `combine_filters`).

Rust's `Arc` sharing is erased (it is semantically `clone`-transparent),
`String` maps to `String`, `i64` literals to `Int`, `usize` limits to
`Nat`, and `Result<_, String>` to `Except String _`.  `clone()` is the
identity on these pure values.
-/

/-- The change-tracking wrapper: `Yes t` means the node was transformed,
`No t` means it was not.  Mirrors `enum Transformed<T>`. -/
inductive Transformed (T : Type) where
  | Yes (t : T)
  | No (t : T)
deriving DecidableEq

namespace Transformed

/-- `Transformed::into_inner` — unwrap unconditionally. -/
def into_inner {T : Type} : Transformed T → T
  | .Yes t => t
  | .No t => t

/-- `Transformed::was_transformed` — report the flag. -/
def was_transformed {T : Type} : Transformed T → Bool
  | .Yes _ => true
  | .No _ => false

end Transformed

/-- `enum BinaryOperator`. -/
inductive BinaryOperator where
  | Eq | Ne | Lt | Le | Gt | Ge | And | Or | Plus | Minus
deriving DecidableEq

/-- `enum Expression`: column reference, integer literal, binary
operator application, null test. -/
inductive Expression where
  | Column (name : String)
  | Literal (i : Int)
  | BinaryOp (left : Expression) (op : BinaryOperator) (right : Expression)
  | IsNull (e : Expression)
deriving DecidableEq

/-- `enum JoinType`. -/
inductive JoinType where
  | Inner | Left | Right | Full
deriving DecidableEq

/-- `enum LogicalPlan`: the plan IR.  `Arc<LogicalPlan>` children are
embedded as plain subtrees.  The Rust `Join` field `on` is a reserved
word in Lean and is spelled `on_cols` here. -/
inductive LogicalPlan where
  | TableScan (table_name : String) (projected_columns : List String)
  | Filter (predicate : Expression) (input : LogicalPlan)
  | Projection (expressions : List Expression) (input : LogicalPlan)
  | Join (left : LogicalPlan) (right : LogicalPlan)
      (join_type : JoinType) (on_cols : List (String × String))
  | Limit (limit : Nat) (input : LogicalPlan)
deriving DecidableEq

namespace LogicalPlan

/-- `LogicalPlan::apply_children` (the `impl TreeNode for LogicalPlan`
borrowing variant): apply `f` to every immediate child; if any child's
result is flagged `Yes`, rebuild the node with the updated children,
otherwise return `No` with the original node (`self.clone()`).  A
`TableScan` leaf returns `No` without invoking `f`. -/
def apply_children (self : LogicalPlan)
    (f : LogicalPlan → Except String (Transformed LogicalPlan)) :
    Except String (Transformed LogicalPlan) :=
  match self with
  | .TableScan tn pc => .ok (.No (.TableScan tn pc))
  | .Filter predicate input => do
      let ti ← f input
      if ti.was_transformed then
        pure (.Yes (.Filter predicate ti.into_inner))
      else
        pure (.No (.Filter predicate input))
  | .Projection expressions input => do
      let ti ← f input
      if ti.was_transformed then
        pure (.Yes (.Projection expressions ti.into_inner))
      else
        pure (.No (.Projection expressions input))
  | .Join left right jt oc => do
      let tl ← f left
      let tr ← f right
      if tl.was_transformed || tr.was_transformed then
        pure (.Yes (.Join tl.into_inner tr.into_inner jt oc))
      else
        pure (.No (.Join left right jt oc))
  | .Limit limit input => do
      let ti ← f input
      if ti.was_transformed then
        pure (.Yes (.Limit limit ti.into_inner))
      else
        pure (.No (.Limit limit input))

/-- `LogicalPlan::map_children` (the owning variant): consumes the node,
passes each child into `f`, and rebuilds from `into_inner` of the
results in both the `Yes` and the `No` branch. -/
def map_children (self : LogicalPlan)
    (f : LogicalPlan → Except String (Transformed LogicalPlan)) :
    Except String (Transformed LogicalPlan) :=
  match self with
  | .TableScan tn pc => .ok (.No (.TableScan tn pc))
  | .Filter predicate input => do
      let ti ← f input
      if ti.was_transformed then
        pure (.Yes (.Filter predicate ti.into_inner))
      else
        pure (.No (.Filter predicate ti.into_inner))
  | .Projection expressions input => do
      let ti ← f input
      if ti.was_transformed then
        pure (.Yes (.Projection expressions ti.into_inner))
      else
        pure (.No (.Projection expressions ti.into_inner))
  | .Join left right jt oc => do
      let tl ← f left
      let tr ← f right
      if tl.was_transformed || tr.was_transformed then
        pure (.Yes (.Join tl.into_inner tr.into_inner jt oc))
      else
        pure (.No (.Join tl.into_inner tr.into_inner jt oc))
  | .Limit limit input => do
      let ti ← f input
      if ti.was_transformed then
        pure (.Yes (.Limit limit ti.into_inner))
      else
        pure (.No (.Limit limit ti.into_inner))

/-- `TreeNode::transform` (post-order): recursively transform all
children via `apply_children`, then apply `f` to the interim node.
Written here by structural recursion with `apply_children` unfolded per
constructor so Lean sees termination; the theorem `transform_eq` below
re-establishes the trait-level equation
`transform self f = (apply_children self (transform · f)) >>= (f ∘ into_inner)`
verbatim. -/
def transform (f : LogicalPlan → Except String (Transformed LogicalPlan)) :
    LogicalPlan → Except String (Transformed LogicalPlan)
  | .TableScan tn pc => f (.TableScan tn pc)
  | .Filter predicate input => do
      let ti ← transform f input
      if ti.was_transformed then
        f (.Filter predicate ti.into_inner)
      else
        f (.Filter predicate input)
  | .Projection expressions input => do
      let ti ← transform f input
      if ti.was_transformed then
        f (.Projection expressions ti.into_inner)
      else
        f (.Projection expressions input)
  | .Join left right jt oc => do
      let tl ← transform f left
      let tr ← transform f right
      if tl.was_transformed || tr.was_transformed then
        f (.Join tl.into_inner tr.into_inner jt oc)
      else
        f (.Join left right jt oc)
  | .Limit limit input => do
      let ti ← transform f input
      if ti.was_transformed then
        f (.Limit limit ti.into_inner)
      else
        f (.Limit limit input)

/-- `TreeNode::transform_down` (pre-order, owning): apply `f` to the
node first, then recurse into the children of `f`'s output via
`map_children`.  The Rust original recurses on `f`'s output, which for a
node-growing `f` need not terminate, so the embedding threads an
explicit `fuel` bound modelling the call stack; every claim about
`transform_down` is stated for executions within the bound. -/
def transform_down
    (f : LogicalPlan → Except String (Transformed LogicalPlan)) :
    Nat → LogicalPlan → Except String (Transformed LogicalPlan)
  | 0, _ => .error "recursion limit exceeded"
  | fuel + 1, self => do
      let tn ← f self
      map_children tn.into_inner (fun child => transform_down f fuel child)

end LogicalPlan

namespace OptimizationRule

/-- `OptimizationRule::push_down_limit`: rewrite
`Limit(n, Projection(exprs, input))` to `Projection(exprs, Limit(n, input))`;
anything else is returned unchanged with `No`. -/
def push_down_limit (plan : LogicalPlan) :
    Except String (Transformed LogicalPlan) :=
  match plan with
  | .Limit limit input =>
      match input with
      | .Projection expressions proj_input =>
          .ok (.Yes (.Projection expressions (.Limit limit proj_input)))
      | _ => .ok (.No plan)
  | _ => .ok (.No plan)

/-- `OptimizationRule::remove_redundant_projection`: on
`Projection(exprs, TableScan{..})`, collect the names of the
column-reference expressions (non-column expressions are skipped by
`filter_map`) and, if that list equals `projected_columns`, replace the
node by the scan; otherwise `No`. -/
def remove_redundant_projection (plan : LogicalPlan) :
    Except String (Transformed LogicalPlan) :=
  match plan with
  | .Projection expressions input =>
      match input with
      | .TableScan tn projected_columns =>
          let expr_columns : List String := expressions.filterMap
            (fun e => match e with
              | .Column name => some name
              | _ => none)
          if expr_columns = projected_columns then
            .ok (.Yes (.TableScan tn projected_columns))
          else
            .ok (.No plan)
      | _ => .ok (.No plan)
  | _ => .ok (.No plan)

/-- `OptimizationRule::combine_filters`: rewrite
`Filter(p1, Filter(p2, input))` to `Filter(AND(p1, p2), input)`;
anything else is returned unchanged with `No`. -/
def combine_filters (plan : LogicalPlan) :
    Except String (Transformed LogicalPlan) :=
  match plan with
  | .Filter pred1 input =>
      match input with
      | .Filter pred2 inner_input =>
          .ok (.Yes (.Filter
            (.BinaryOp pred1 .And pred2) inner_input))
      | _ => .ok (.No plan)
  | _ => .ok (.No plan)

end OptimizationRule

/-- A plan has no `Filter(_, Filter(_, _))` pattern anywhere. -/
def no_consecutive_filters : LogicalPlan → Bool
  | .TableScan _ _ => true
  | .Filter _ input =>
      (match input with
        | .Filter _ _ => false
        | _ => true) && no_consecutive_filters input
  | .Projection _ input => no_consecutive_filters input
  | .Join left right _ _ =>
      no_consecutive_filters left && no_consecutive_filters right
  | .Limit _ input => no_consecutive_filters input

/-- The root of the plan is a `Filter` node. -/
def is_filter : LogicalPlan → Bool
  | .Filter _ _ => true
  | _ => false

/-- The root of the plan is a `Filter` whose input is again a `Filter`
— exactly the trigger shape of `combine_filters`. -/
def root_filter_filter : LogicalPlan → Bool
  | .Filter _ (.Filter _ _) => true
  | _ => false

section Lemmas

/-- `Except` bind on a success evaluates the continuation. -/
theorem ok_bind {ε α β : Type} (a : α) (g : α → Except ε β) :
    (Except.ok a : Except ε α) >>= g = g a := rfl

/-- `Except` bind on an error short-circuits. -/
theorem error_bind {ε α β : Type} (e : ε) (g : α → Except ε β) :
    (Except.error e : Except ε α) >>= g = Except.error e := rfl

/-- The trait-level equation for `transform`: children first through
`apply_children`, then `f` on the interim node. -/
theorem LogicalPlan.transform_eq (self : LogicalPlan)
    (f : LogicalPlan → Except String (Transformed LogicalPlan)) :
    self.transform f
      = (self.apply_children (fun c => c.transform f))
          >>= (fun t => f t.into_inner) := by
  cases self with
  | TableScan tn pc => rfl
  | Filter p i =>
      cases h : LogicalPlan.transform f i with
      | error e =>
          simp [LogicalPlan.transform, LogicalPlan.apply_children, h,
            error_bind]
      | ok ti =>
          cases ti <;>
            simp [LogicalPlan.transform, LogicalPlan.apply_children, h,
              ok_bind, Transformed.was_transformed, Transformed.into_inner]
  | Projection e i =>
      cases h : LogicalPlan.transform f i with
      | error err =>
          simp [LogicalPlan.transform, LogicalPlan.apply_children, h,
            error_bind]
      | ok ti =>
          cases ti <;>
            simp [LogicalPlan.transform, LogicalPlan.apply_children, h,
              ok_bind, Transformed.was_transformed, Transformed.into_inner]
  | Join l r jt oc =>
      cases hl : LogicalPlan.transform f l with
      | error e =>
          simp [LogicalPlan.transform, LogicalPlan.apply_children, hl,
            error_bind]
      | ok tl =>
          cases hr : LogicalPlan.transform f r with
          | error e =>
              simp [LogicalPlan.transform, LogicalPlan.apply_children,
                hl, hr, ok_bind, error_bind]
          | ok tr =>
              cases tl <;> cases tr <;>
                simp [LogicalPlan.transform, LogicalPlan.apply_children,
                  hl, hr, ok_bind, Transformed.was_transformed,
                  Transformed.into_inner]
  | Limit n i =>
      cases h : LogicalPlan.transform f i with
      | error e =>
          simp [LogicalPlan.transform, LogicalPlan.apply_children, h,
            error_bind]
      | ok ti =>
          cases ti <;>
            simp [LogicalPlan.transform, LogicalPlan.apply_children, h,
              ok_bind, Transformed.was_transformed, Transformed.into_inner]

end Lemmas

/-- C1: the rule's `filter_map` drops non-column expressions before the
comparison, so `remove_redundant_projection` fires on a projection that
contains a non-column expression: at
`Projection([Column id, Column name, Column salary, Literal 1],
TableScan(employees,[id,name,salary]))` the code returns
`Yes(TableScan)`, eliding a projection that is not a verbatim column
list, contrary to the spec (and to the rule's own comment). -/
theorem remove_redundant_projection_fires_despite_non_column_expression :
    OptimizationRule.remove_redundant_projection
      (.Projection
        [.Column "id", .Column "name", .Column "salary", .Literal 1]
        (.TableScan "employees" ["id", "name", "salary"]))
      = .ok (.Yes (.TableScan "employees" ["id", "name", "salary"])) := by
  rfl

/-- C2: `combine_filters` rewrites `Filter(p1, Filter(p2, input))` to
`Filter(AND(p1, p2), input)` with `p1` on the left; on every other
shape it returns `No` with the original node; and it never errors. -/
theorem combine_filters_spec (plan : LogicalPlan) :
    (∀ p1 p2 inner_input,
        plan = .Filter p1 (.Filter p2 inner_input) →
        OptimizationRule.combine_filters plan
          = .ok (.Yes (.Filter (.BinaryOp p1 .And p2) inner_input)))
    ∧ ((∀ p1 p2 inner_input,
          plan ≠ .Filter p1 (.Filter p2 inner_input)) →
        OptimizationRule.combine_filters plan = .ok (.No plan))
    ∧ (∃ t, OptimizationRule.combine_filters plan = .ok t) := by
  refine ⟨fun p1 p2 ii h => by subst h; rfl, fun h => ?_, ?_⟩
  · cases plan with
    | TableScan tn pc => rfl
    | Projection e i => rfl
    | Join l r jt oc => rfl
    | Limit n i => rfl
    | Filter p input =>
        cases input with
        | Filter q i => exact absurd rfl (h p q i)
        | TableScan tn pc => rfl
        | Projection e i => rfl
        | Join l r jt oc => rfl
        | Limit n i => rfl
  · cases plan with
    | TableScan tn pc => exact ⟨_, rfl⟩
    | Projection e i => exact ⟨_, rfl⟩
    | Join l r jt oc => exact ⟨_, rfl⟩
    | Limit n i => exact ⟨_, rfl⟩
    | Filter p input =>
        cases input with
        | Filter q i => exact ⟨_, rfl⟩
        | TableScan tn pc => exact ⟨_, rfl⟩
        | Projection e i => exact ⟨_, rfl⟩
        | Join l r jt oc => exact ⟨_, rfl⟩
        | Limit n i => exact ⟨_, rfl⟩

/-- Witness for C2: both branches of `combine_filters_spec` at concrete
plans. -/
theorem combine_filters_spec_witness :
    OptimizationRule.combine_filters
        (.Filter (.Column "a") (.Filter (.Column "b")
          (.TableScan "t" ["x"])))
      = .ok (.Yes (.Filter (.BinaryOp (.Column "a") .And (.Column "b"))
          (.TableScan "t" ["x"])))
    ∧ OptimizationRule.combine_filters (.TableScan "t" ["x"])
      = .ok (.No (.TableScan "t" ["x"])) :=
  ⟨(combine_filters_spec _).1 _ _ _ rfl,
   (combine_filters_spec _).2.1
     (fun _ _ _ h => LogicalPlan.noConfusion h)⟩

/-- C3: `push_down_limit` rewrites `Limit(n, Projection(exprs, input))`
to `Projection(exprs, Limit(n, input))`, carrying `n`, `exprs` and the
grandchild unchanged; on every other shape it returns `No` with the
original node; and it never errors. -/
theorem push_down_limit_spec (plan : LogicalPlan) :
    (∀ n exprs input,
        plan = .Limit n (.Projection exprs input) →
        OptimizationRule.push_down_limit plan
          = .ok (.Yes (.Projection exprs (.Limit n input))))
    ∧ ((∀ n exprs input,
          plan ≠ .Limit n (.Projection exprs input)) →
        OptimizationRule.push_down_limit plan = .ok (.No plan))
    ∧ (∃ t, OptimizationRule.push_down_limit plan = .ok t) := by
  refine ⟨fun n exprs input h => by subst h; rfl, fun h => ?_, ?_⟩
  · cases plan with
    | TableScan tn pc => rfl
    | Projection e i => rfl
    | Join l r jt oc => rfl
    | Filter p i => rfl
    | Limit n input =>
        cases input with
        | Projection e i => exact absurd rfl (h n e i)
        | TableScan tn pc => rfl
        | Filter p i => rfl
        | Join l r jt oc => rfl
        | Limit m i => rfl
  · cases plan with
    | TableScan tn pc => exact ⟨_, rfl⟩
    | Projection e i => exact ⟨_, rfl⟩
    | Join l r jt oc => exact ⟨_, rfl⟩
    | Filter p i => exact ⟨_, rfl⟩
    | Limit n input =>
        cases input with
        | Projection e i => exact ⟨_, rfl⟩
        | TableScan tn pc => exact ⟨_, rfl⟩
        | Filter p i => exact ⟨_, rfl⟩
        | Join l r jt oc => exact ⟨_, rfl⟩
        | Limit m i => exact ⟨_, rfl⟩

/-- Witness for C3: both branches of `push_down_limit_spec` at concrete
plans. -/
theorem push_down_limit_spec_witness :
    OptimizationRule.push_down_limit
        (.Limit 10 (.Projection [.Column "id"] (.TableScan "t" ["id"])))
      = .ok (.Yes (.Projection [.Column "id"]
          (.Limit 10 (.TableScan "t" ["id"]))))
    ∧ OptimizationRule.push_down_limit (.TableScan "t" ["id"])
      = .ok (.No (.TableScan "t" ["id"])) :=
  ⟨(push_down_limit_spec _).1 _ _ _ rfl,
   (push_down_limit_spec _).2.1
     (fun _ _ _ h => LogicalPlan.noConfusion h)⟩

/-- C4: for every `TableScan` and every `f`, both `apply_children` and
`map_children` return `No` with the node unchanged; since this holds
uniformly in `f`, the result never depends on `f` — `f` is never
invoked. -/
theorem tablescan_children_invariant (tn : String) (pc : List String)
    (f : LogicalPlan → Except String (Transformed LogicalPlan)) :
    (LogicalPlan.TableScan tn pc).apply_children f
        = .ok (.No (.TableScan tn pc))
      ∧ (LogicalPlan.TableScan tn pc).map_children f
        = .ok (.No (.TableScan tn pc)) :=
  ⟨rfl, rfl⟩

/-- C5: the result of `transform` is exactly `f`'s verdict on the
interim node (the node whose children were recursively transformed), so
the change flag is determined solely by `f`'s verdict there, and any
child-level changes are present in the interim node `f` receives. -/
theorem transform_flag_is_f_verdict (node : LogicalPlan)
    (f : LogicalPlan → Except String (Transformed LogicalPlan))
    (t : Transformed LogicalPlan)
    (h : node.apply_children (fun c => c.transform f) = .ok t) :
    node.transform f = f t.into_inner := by
  rw [LogicalPlan.transform_eq, h, ok_bind]

/-- Witness for C5 at a concrete node and rule. -/
theorem transform_flag_is_f_verdict_witness :
    (LogicalPlan.TableScan "t" ["x"]).transform
        (fun n => .ok (.No n))
      = .ok (.No (.TableScan "t" ["x"])) :=
  transform_flag_is_f_verdict _ _ (.No (.TableScan "t" ["x"])) rfl

/-- C6: `transform` with the identity rule returns `No` wrapping a tree
equal to the input, for every input tree. -/
theorem transform_identity (node : LogicalPlan) :
    node.transform (fun n => .ok (.No n)) = .ok (.No node) := by
  induction node with
  | TableScan tn pc => rfl
  | Filter p i ih =>
      simp [LogicalPlan.transform, ih, ok_bind,
        Transformed.was_transformed, Transformed.into_inner]
  | Projection e i ih =>
      simp [LogicalPlan.transform, ih, ok_bind,
        Transformed.was_transformed, Transformed.into_inner]
  | Join l r jt oc ihl ihr =>
      simp [LogicalPlan.transform, ihl, ihr, ok_bind,
        Transformed.was_transformed, Transformed.into_inner]
  | Limit n i ih =>
      simp [LogicalPlan.transform, ih, ok_bind,
        Transformed.was_transformed, Transformed.into_inner]

/-- C8: errors short-circuit.  (1) In `apply_children` on a `Join`, an
error from the left child propagates without the right child being
visited (the result is the error for every behaviour of `f` on the
right child).  (2) In `transform`, a rule that fails makes the whole
call fail with that error.  (3) In `transform_down`, an error from `f`
on the node propagates immediately.  (4) In `transform`, an error from
a child traversal propagates before `f` is consulted on the parent. -/
theorem error_short_circuit :
    (∀ (l r : LogicalPlan) (jt : JoinType)
        (oc : List (String × String))
        (f : LogicalPlan → Except String (Transformed LogicalPlan))
        (e : String), f l = .error e →
        (LogicalPlan.Join l r jt oc).apply_children f = .error e)
    ∧ (∀ (node : LogicalPlan) (e : String),
        node.transform (fun _ => .error e) = .error e)
    ∧ (∀ (fuel : Nat) (node : LogicalPlan)
        (f : LogicalPlan → Except String (Transformed LogicalPlan))
        (e : String), f node = .error e →
        node.transform_down f (fuel + 1) = .error e)
    ∧ (∀ (p : Expression) (input : LogicalPlan)
        (f : LogicalPlan → Except String (Transformed LogicalPlan))
        (e : String), input.transform f = .error e →
        (LogicalPlan.Filter p input).transform f = .error e) := by
  refine ⟨fun l r jt oc f e h => ?_, fun node e => ?_,
    fun fuel node f e h => ?_, fun p input f e h => ?_⟩
  · simp [LogicalPlan.apply_children, h, error_bind]
  · induction node with
    | TableScan tn pc => rfl
    | Filter p i ih => simp [LogicalPlan.transform, ih, error_bind]
    | Projection ex i ih => simp [LogicalPlan.transform, ih, error_bind]
    | Join l r jt oc ihl ihr =>
        simp [LogicalPlan.transform, ihl, error_bind]
    | Limit n i ih => simp [LogicalPlan.transform, ih, error_bind]
  · simp [LogicalPlan.transform_down, h, error_bind]
  · simp [LogicalPlan.transform, h, error_bind]

/-- Witness for C8: each clause at a concrete input with the failing
rule `fun _ => .error "boom"`. -/
theorem error_short_circuit_witness :
    (LogicalPlan.Join (.TableScan "l" ["a"]) (.TableScan "r" ["b"])
        .Inner []).apply_children (fun _ => .error "boom")
      = .error "boom"
    ∧ (LogicalPlan.TableScan "t" ["x"]).transform
        (fun _ => .error "boom") = .error "boom"
    ∧ (LogicalPlan.TableScan "t" ["x"]).transform_down
        (fun _ => .error "boom") 1 = .error "boom"
    ∧ (LogicalPlan.Filter (.Column "c") (.TableScan "t" ["x"])).transform
        (fun _ => .error "boom") = .error "boom" :=
  ⟨error_short_circuit.1 _ _ _ _ _ _ rfl,
   error_short_circuit.2.1 _ _,
   error_short_circuit.2.2.1 0 _ _ _ rfl,
   error_short_circuit.2.2.2 _ _ _ _
     (error_short_circuit.2.1 (LogicalPlan.TableScan "t" ["x"]) "boom")⟩

/-- C9: for an `f` that is honest about its flag (a `No` verdict always
carries back its argument), `map_children` and `apply_children` agree:
same flag, equal result node, same error. -/
theorem map_children_eq_apply_children (node : LogicalPlan)
    (f : LogicalPlan → Except String (Transformed LogicalPlan))
    (hf : ∀ v w, f v = .ok (.No w) → w = v) :
    node.map_children f = node.apply_children f := by
  cases node with
  | TableScan tn pc => rfl
  | Filter p i =>
      cases h : f i with
      | error e =>
          simp [LogicalPlan.map_children, LogicalPlan.apply_children, h,
            error_bind]
      | ok ti =>
          cases ti with
          | Yes v =>
              simp [LogicalPlan.map_children, LogicalPlan.apply_children,
                h, ok_bind, Transformed.was_transformed,
                Transformed.into_inner]
          | No w =>
              have hw : w = i := hf i w h
              subst hw
              simp [LogicalPlan.map_children, LogicalPlan.apply_children,
                h, ok_bind, Transformed.was_transformed,
                Transformed.into_inner]
  | Projection e i =>
      cases h : f i with
      | error err =>
          simp [LogicalPlan.map_children, LogicalPlan.apply_children, h,
            error_bind]
      | ok ti =>
          cases ti with
          | Yes v =>
              simp [LogicalPlan.map_children, LogicalPlan.apply_children,
                h, ok_bind, Transformed.was_transformed,
                Transformed.into_inner]
          | No w =>
              have hw : w = i := hf i w h
              subst hw
              simp [LogicalPlan.map_children, LogicalPlan.apply_children,
                h, ok_bind, Transformed.was_transformed,
                Transformed.into_inner]
  | Join l r jt oc =>
      cases hl : f l with
      | error e =>
          simp [LogicalPlan.map_children, LogicalPlan.apply_children, hl,
            error_bind]
      | ok tl =>
          cases hr : f r with
          | error e =>
              simp [LogicalPlan.map_children, LogicalPlan.apply_children,
                hl, hr, ok_bind, error_bind]
          | ok tr =>
              cases tl with
              | Yes vl =>
                  cases tr <;>
                    simp [LogicalPlan.map_children,
                      LogicalPlan.apply_children, hl, hr, ok_bind,
                      Transformed.was_transformed, Transformed.into_inner]
              | No wl =>
                  have hwl : wl = l := hf l wl hl
                  subst hwl
                  cases tr with
                  | Yes vr =>
                      simp [LogicalPlan.map_children,
                        LogicalPlan.apply_children, hl, hr, ok_bind,
                        Transformed.was_transformed,
                        Transformed.into_inner]
                  | No wr =>
                      have hwr : wr = r := hf r wr hr
                      subst hwr
                      simp [LogicalPlan.map_children,
                        LogicalPlan.apply_children, hl, hr, ok_bind,
                        Transformed.was_transformed,
                        Transformed.into_inner]
  | Limit n i =>
      cases h : f i with
      | error err =>
          simp [LogicalPlan.map_children, LogicalPlan.apply_children, h,
            error_bind]
      | ok ti =>
          cases ti with
          | Yes v =>
              simp [LogicalPlan.map_children, LogicalPlan.apply_children,
                h, ok_bind, Transformed.was_transformed,
                Transformed.into_inner]
          | No w =>
              have hw : w = i := hf i w h
              subst hw
              simp [LogicalPlan.map_children, LogicalPlan.apply_children,
                h, ok_bind, Transformed.was_transformed,
                Transformed.into_inner]

/-- Witness for C9 at a concrete node and the honest identity rule. -/
theorem map_children_eq_apply_children_witness :
    (LogicalPlan.Filter (.Column "a")
        (.TableScan "t" ["x"])).map_children (fun n => .ok (.No n))
      = (LogicalPlan.Filter (.Column "a")
          (.TableScan "t" ["x"])).apply_children (fun n => .ok (.No n)) :=
  map_children_eq_apply_children _ _
    (fun v w h => by
      injection h with h1
      injection h1 with h2
      exact h2.symm)

/-- C10: the result of `transform_down` is exactly the final
`map_children` step over the recursive child calls, so the change flag
is the one `map_children` computes and `f`'s own verdict on the node is
discarded; in particular, `f` answering `Yes` on a `TableScan` root
still yields an overall `No` (while the value is `f`'s rewrite). -/
theorem transform_down_flag_from_map_children :
    (∀ (fuel : Nat) (node : LogicalPlan)
        (f : LogicalPlan → Except String (Transformed LogicalPlan))
        (t : Transformed LogicalPlan), f node = .ok t →
        node.transform_down f (fuel + 1)
          = t.into_inner.map_children
              (fun c => c.transform_down f fuel))
    ∧ (∀ (tn : String) (pc : List String) (fuel : Nat),
        (LogicalPlan.TableScan tn pc).transform_down
            (fun n => .ok (.Yes n)) (fuel + 1)
          = .ok (.No (.TableScan tn pc))) := by
  constructor
  · intro fuel node f t h
    simp [LogicalPlan.transform_down, h, ok_bind]
  · intro tn pc fuel
    rfl

/-- Witness for C10: the first clause at a root-rewriting rule whose
`Yes` verdict is discarded. -/
theorem transform_down_flag_from_map_children_witness :
    (LogicalPlan.TableScan "t" ["x"]).transform_down
        (fun n => .ok (.Yes n)) 1
      = (Transformed.Yes
          (LogicalPlan.TableScan "t" ["x"])).into_inner.map_children
          (fun c => c.transform_down (fun n => .ok (.Yes n)) 0) :=
  transform_down_flag_from_map_children.1 0 _ _ _ rfl

/-- `root_filter_filter` on a `Filter` asks whether its input is a
`Filter`. -/
theorem root_ff_filter (p : Expression) (x : LogicalPlan) :
    root_filter_filter (.Filter p x) = is_filter x := by
  cases x <;> rfl

/-- `combine_filters` declines a `Filter` whose input is not a
`Filter`. -/
theorem cf_of_not_filter_input (p : Expression) (x : LogicalPlan)
    (h : is_filter x = false) :
    OptimizationRule.combine_filters (.Filter p x)
      = .ok (.No (.Filter p x)) := by
  cases x with
  | Filter q d => simp [is_filter] at h
  | TableScan tn pc => rfl
  | Projection e i => rfl
  | Join l r jt oc => rfl
  | Limit n i => rfl

/-- Structure of a whole-tree `combine_filters` pass: it always
succeeds, preserves the root constructor, never leaves the trigger
pattern at the root of its output, and reports `No` only when the input
root was not the trigger pattern. -/
theorem cf_transform_main (node : LogicalPlan) :
    ∃ r, node.transform OptimizationRule.combine_filters = .ok r
      ∧ is_filter r.into_inner = is_filter node
      ∧ root_filter_filter r.into_inner = false
      ∧ (r.was_transformed = false → root_filter_filter node = false) := by
  induction node with
  | TableScan tn pc =>
      exact ⟨.No (.TableScan tn pc), rfl, rfl, rfl, fun _ => rfl⟩
  | Filter p i ih =>
      obtain ⟨ti, hti, hhead, hroot, hnoflag⟩ := ih
      cases ti with
      | Yes v =>
          simp only [Transformed.into_inner] at hhead hroot
          have htr : (LogicalPlan.Filter p i).transform
                OptimizationRule.combine_filters
              = OptimizationRule.combine_filters (.Filter p v) := by
            simp [LogicalPlan.transform, hti, ok_bind,
              Transformed.was_transformed, Transformed.into_inner]
          cases v with
          | Filter q d =>
              have hd : is_filter d = false := by
                rwa [root_ff_filter] at hroot
              refine ⟨.Yes (.Filter (.BinaryOp p .And q) d), ?_, rfl,
                ?_, ?_⟩
              · rw [htr]; rfl
              · simp only [Transformed.into_inner]
                rw [root_ff_filter]; exact hd
              · intro hc; simp [Transformed.was_transformed] at hc
          | TableScan tn pc =>
              refine ⟨.No (.Filter p (.TableScan tn pc)), ?_, rfl, rfl,
                ?_⟩
              · rw [htr]; rfl
              · intro _; rw [root_ff_filter]; exact hhead.symm
          | Projection e d =>
              refine ⟨.No (.Filter p (.Projection e d)), ?_, rfl, rfl,
                ?_⟩
              · rw [htr]; rfl
              · intro _; rw [root_ff_filter]; exact hhead.symm
          | Join l r jt oc =>
              refine ⟨.No (.Filter p (.Join l r jt oc)), ?_, rfl, rfl,
                ?_⟩
              · rw [htr]; rfl
              · intro _; rw [root_ff_filter]; exact hhead.symm
          | Limit n d =>
              refine ⟨.No (.Filter p (.Limit n d)), ?_, rfl, rfl, ?_⟩
              · rw [htr]; rfl
              · intro _; rw [root_ff_filter]; exact hhead.symm
      | No v =>
          have hri : root_filter_filter i = false := hnoflag rfl
          have htr : (LogicalPlan.Filter p i).transform
                OptimizationRule.combine_filters
              = OptimizationRule.combine_filters (.Filter p i) := by
            simp [LogicalPlan.transform, hti, ok_bind,
              Transformed.was_transformed]
          cases i with
          | Filter q d =>
              have hd : is_filter d = false := by
                rwa [root_ff_filter] at hri
              refine ⟨.Yes (.Filter (.BinaryOp p .And q) d), ?_, rfl,
                ?_, ?_⟩
              · rw [htr]; rfl
              · simp only [Transformed.into_inner]
                rw [root_ff_filter]; exact hd
              · intro hc; simp [Transformed.was_transformed] at hc
          | TableScan tn pc =>
              refine ⟨.No (.Filter p (.TableScan tn pc)), ?_, rfl, rfl,
                fun _ => rfl⟩
              rw [htr]; rfl
          | Projection e d =>
              refine ⟨.No (.Filter p (.Projection e d)), ?_, rfl, rfl,
                fun _ => rfl⟩
              rw [htr]; rfl
          | Join l r jt oc =>
              refine ⟨.No (.Filter p (.Join l r jt oc)), ?_, rfl, rfl,
                fun _ => rfl⟩
              rw [htr]; rfl
          | Limit n d =>
              refine ⟨.No (.Filter p (.Limit n d)), ?_, rfl, rfl,
                fun _ => rfl⟩
              rw [htr]; rfl
  | Projection e i ih =>
      obtain ⟨ti, hti, _, _, _⟩ := ih
      cases ti with
      | Yes v =>
          refine ⟨.No (.Projection e v), ?_, rfl, rfl, fun _ => rfl⟩
          simp [LogicalPlan.transform, hti, ok_bind,
            Transformed.was_transformed, Transformed.into_inner,
            OptimizationRule.combine_filters]
      | No v =>
          refine ⟨.No (.Projection e i), ?_, rfl, rfl, fun _ => rfl⟩
          simp [LogicalPlan.transform, hti, ok_bind,
            Transformed.was_transformed,
            OptimizationRule.combine_filters]
  | Join l r jt oc ihl ihr =>
      obtain ⟨tl, htl, _, _, _⟩ := ihl
      obtain ⟨tr, htr2, _, _, _⟩ := ihr
      cases tl with
      | Yes vl =>
          cases tr with
          | Yes vr =>
              refine ⟨.No (.Join vl vr jt oc), ?_, rfl, rfl,
                fun _ => rfl⟩
              simp [LogicalPlan.transform, htl, htr2, ok_bind,
                Transformed.was_transformed, Transformed.into_inner,
                OptimizationRule.combine_filters]
          | No vr =>
              refine ⟨.No (.Join vl vr jt oc), ?_, rfl, rfl,
                fun _ => rfl⟩
              simp [LogicalPlan.transform, htl, htr2, ok_bind,
                Transformed.was_transformed, Transformed.into_inner,
                OptimizationRule.combine_filters]
      | No vl =>
          cases tr with
          | Yes vr =>
              refine ⟨.No (.Join vl vr jt oc), ?_, rfl, rfl,
                fun _ => rfl⟩
              simp [LogicalPlan.transform, htl, htr2, ok_bind,
                Transformed.was_transformed, Transformed.into_inner,
                OptimizationRule.combine_filters]
          | No vr =>
              refine ⟨.No (.Join l r jt oc), ?_, rfl, rfl,
                fun _ => rfl⟩
              simp [LogicalPlan.transform, htl, htr2, ok_bind,
                Transformed.was_transformed,
                OptimizationRule.combine_filters]
  | Limit n i ih =>
      obtain ⟨ti, hti, _, _, _⟩ := ih
      cases ti with
      | Yes v =>
          refine ⟨.No (.Limit n v), ?_, rfl, rfl, fun _ => rfl⟩
          simp [LogicalPlan.transform, hti, ok_bind,
            Transformed.was_transformed, Transformed.into_inner,
            OptimizationRule.combine_filters]
      | No v =>
          refine ⟨.No (.Limit n i), ?_, rfl, rfl, fun _ => rfl⟩
          simp [LogicalPlan.transform, hti, ok_bind,
            Transformed.was_transformed,
            OptimizationRule.combine_filters]

/-- A `combine_filters` pass over a tree whose root is not the trigger
pattern reports `No`. -/
theorem cf_second_pass_no_flag (t : LogicalPlan)
    (h : root_filter_filter t = false) :
    ∃ r2, t.transform OptimizationRule.combine_filters = .ok r2
      ∧ r2.was_transformed = false := by
  cases t with
  | TableScan tn pc => exact ⟨.No (.TableScan tn pc), rfl, rfl⟩
  | Filter q d =>
      have hd : is_filter d = false := by rwa [root_ff_filter] at h
      obtain ⟨td, htd, hhead, _, _⟩ := cf_transform_main d
      cases td with
      | Yes v =>
          simp only [Transformed.into_inner] at hhead
          have hv : is_filter v = false := hhead.trans hd
          refine ⟨.No (.Filter q v), ?_, rfl⟩
          have htr : (LogicalPlan.Filter q d).transform
                OptimizationRule.combine_filters
              = OptimizationRule.combine_filters (.Filter q v) := by
            simp [LogicalPlan.transform, htd, ok_bind,
              Transformed.was_transformed, Transformed.into_inner]
          rw [htr]
          exact cf_of_not_filter_input q v hv
      | No v =>
          refine ⟨.No (.Filter q d), ?_, rfl⟩
          have htr : (LogicalPlan.Filter q d).transform
                OptimizationRule.combine_filters
              = OptimizationRule.combine_filters (.Filter q d) := by
            simp [LogicalPlan.transform, htd, ok_bind,
              Transformed.was_transformed]
          rw [htr]
          exact cf_of_not_filter_input q d hd
  | Projection e i =>
      obtain ⟨ti, hti, _, _, _⟩ := cf_transform_main i
      cases ti with
      | Yes v =>
          refine ⟨.No (.Projection e v), ?_, rfl⟩
          simp [LogicalPlan.transform, hti, ok_bind,
            Transformed.was_transformed, Transformed.into_inner,
            OptimizationRule.combine_filters]
      | No v =>
          refine ⟨.No (.Projection e i), ?_, rfl⟩
          simp [LogicalPlan.transform, hti, ok_bind,
            Transformed.was_transformed,
            OptimizationRule.combine_filters]
  | Join l r jt oc =>
      obtain ⟨tl, htl, _, _, _⟩ := cf_transform_main l
      obtain ⟨tr, htr2, _, _, _⟩ := cf_transform_main r
      cases tl with
      | Yes vl =>
          cases tr with
          | Yes vr =>
              refine ⟨.No (.Join vl vr jt oc), ?_, rfl⟩
              simp [LogicalPlan.transform, htl, htr2, ok_bind,
                Transformed.was_transformed, Transformed.into_inner,
                OptimizationRule.combine_filters]
          | No vr =>
              refine ⟨.No (.Join vl vr jt oc), ?_, rfl⟩
              simp [LogicalPlan.transform, htl, htr2, ok_bind,
                Transformed.was_transformed, Transformed.into_inner,
                OptimizationRule.combine_filters]
      | No vl =>
          cases tr with
          | Yes vr =>
              refine ⟨.No (.Join vl vr jt oc), ?_, rfl⟩
              simp [LogicalPlan.transform, htl, htr2, ok_bind,
                Transformed.was_transformed, Transformed.into_inner,
                OptimizationRule.combine_filters]
          | No vr =>
              refine ⟨.No (.Join l r jt oc), ?_, rfl⟩
              simp [LogicalPlan.transform, htl, htr2, ok_bind,
                Transformed.was_transformed,
                OptimizationRule.combine_filters]
  | Limit n i =>
      obtain ⟨ti, hti, _, _, _⟩ := cf_transform_main i
      cases ti with
      | Yes v =>
          refine ⟨.No (.Limit n v), ?_, rfl⟩
          simp [LogicalPlan.transform, hti, ok_bind,
            Transformed.was_transformed, Transformed.into_inner,
            OptimizationRule.combine_filters]
      | No v =>
          refine ⟨.No (.Limit n i), ?_, rfl⟩
          simp [LogicalPlan.transform, hti, ok_bind,
            Transformed.was_transformed,
            OptimizationRule.combine_filters]

/-- C7 counterexample: one tree-wide `combine_filters` pass over
`Limit(1, Projection([], Filter(a, Filter(b, scan))))` returns the tree
unchanged — the nested-filter combination computed below the projection
is discarded by `apply_children` because the projection-level call
reported `No` — so the first pass's result still contains a
`Filter(Filter(..))` pattern, refuting the claim as stated. -/
theorem combine_filters_pass_leaves_nested_filters :
    (LogicalPlan.Limit 1 (.Projection []
        (.Filter (.Column "a") (.Filter (.Column "b")
          (.TableScan "t" ["x"]))))).transform
        OptimizationRule.combine_filters
      = .ok (.No (.Limit 1 (.Projection []
          (.Filter (.Column "a") (.Filter (.Column "b")
            (.TableScan "t" ["x"]))))))
    ∧ no_consecutive_filters
        (.Limit 1 (.Projection []
          (.Filter (.Column "a") (.Filter (.Column "b")
            (.TableScan "t" ["x"]))))) = false :=
  ⟨rfl, rfl⟩

/-- C7 (amended): a second tree-wide `combine_filters` pass over the
result of a first pass always reports `No` (no rule application is
flagged); however the first pass need not eliminate every
`Filter(Filter(..))` pattern, because a combination performed beneath a
node whose recursive call reports `No` is discarded by
`apply_children`. -/
theorem combine_filters_second_pass_returns_no (t : LogicalPlan)
    (r : Transformed LogicalPlan)
    (h : t.transform OptimizationRule.combine_filters = .ok r) :
    ∃ r2, r.into_inner.transform OptimizationRule.combine_filters
        = .ok r2
      ∧ r2.was_transformed = false := by
  obtain ⟨r', h', _, hroot, _⟩ := cf_transform_main t
  rw [h] at h'
  injection h' with h''
  subst h''
  exact cf_second_pass_no_flag _ hroot

/-- Witness for the amended C7 at a concrete tree. -/
theorem combine_filters_second_pass_returns_no_witness :
    ∃ r2, (Transformed.No
          (LogicalPlan.TableScan "t" ["x"])).into_inner.transform
          OptimizationRule.combine_filters
        = .ok r2
      ∧ r2.was_transformed = false :=
  combine_filters_second_pass_returns_no (.TableScan "t" ["x"]) _ rfl
